import Mathlib

attribute [local semireducible] Rat.mul Rat.inv Rat.add Rat.sub Rat.ofScientific

/-!
Shallow embedding of the polynomial-roots-calculator core
(src/polynomial.rs, src/roots.rs, src/float.rs).

Modelling conventions:
* An f64 coefficient vector `Vec<f64>` is modelled as `List ℚ`: every finite
  f64 is a rational number, and all coefficient-level arithmetic performed by
  the exact sublayer is rational.  Root values, which go through `sqrt`,
  `acos`, `sin`, `cos` and `powf`, live in `ℝ`.
* `Rational32` values are modelled as `ℚ` together with the representability
  predicate `rep32` (numerator and denominator within the signed 32-bit
  width); `Rational32::from_f64` returns `None` exactly when the reduced
  fraction does not fit, which `toRatios` mirrors.
* A Rust panic (failed `expect`/`assert!`/`todo!()`, integer-underflow on
  `usize`, or `Ratio` division by zero) is modelled as `Option.none`.
* Loops are modelled by fuel-indexed recursion; every fuel value used is large
  enough that fuel exhaustion is unreachable on the executions the theorems
  talk about (the loop bodies strictly decrease a natural measure).
-/

namespace PRC

/-- Numerator/denominator bound of `Rational32` (`i32::MAX`). -/
def I32MAX : ℕ := 2 ^ 31 - 1

/-- A rational is representable as a `Rational32` iff its reduced numerator and
denominator fit in the signed 32-bit width.  `Rational32::from_f64` performs
the exact conversion and fails (returns `None`) otherwise. -/
def rep32 (q : ℚ) : Prop := q.num.natAbs ≤ I32MAX ∧ q.den ≤ I32MAX

instance : DecidablePred rep32 := fun q => by unfold rep32; infer_instance

/-- `Polynomial::to_ratios`: converts every coefficient, `expect`ing success
(a non-representable coefficient panics with "values too big"). -/
def toRatios (l : List ℚ) : Option (List ℚ) :=
  if l.all (fun q => decide (rep32 q)) then some l else none

/-- Coefficient access `p[i]` (`Index<i32> for Polynomial`).  All call sites in
the source access in-bounds indices (plus the special case `p[0] = 0` for the
zero polynomial, which `getD` also yields). -/
def idx (p : List ℚ) (i : ℕ) : ℚ := p.getD i 0

/-- `Polynomial::grade`: length minus one; `-1` denotes the zero polynomial. -/
def grade (p : List ℚ) : ℤ := (p.length : ℤ) - 1

/-- Evaluation of a coefficient list (ascending powers) at a rational point;
used to state the division identity. -/
def evalQ (p : List ℚ) (x : ℚ) : ℚ := p.foldr (fun c a => c + x * a) 0

/-- `Polynomial::derivative`: coefficient `i` of the result is `(i+1)·c_{i+1}`. -/
def derivativeQ (p : List ℚ) : List ℚ :=
  (List.range p.length).tail.map (fun i : ℕ => (i : ℚ) * idx p i)

/-- `From<T> for Polynomial` (construction): caps the length at `i32::MAX`
(panic beyond), and canonicalizes only the singleton `[0.]` to the zero
polynomial.  The finiteness check is vacuous in the rational model. -/
def construct (l : List ℚ) : Option (List ℚ) :=
  if I32MAX < l.length then none
  else match l with
    | [c] => some (if c = 0 then [] else [c])
    | _ => some l

/-- The canonical-form invariant claimed by the spec: a polynomial of grade
`≠ -1` has a non-zero highest-index coefficient. -/
def canonical (p : List ℚ) : Prop := ∀ c, p.getLast? = some c → c ≠ 0

instance : DecidablePred canonical := fun p => by unfold canonical; infer_instance

/-- The single Horner pass of `horner_div`: `b.last = c.last` and
`b k = c k + a * b (k+1)`, computed from the top coefficient down. -/
def hornerPass (a : ℚ) : List ℚ → List ℚ
  | [] => []
  | [c] => [c]
  | c :: c2 :: rest =>
    match hornerPass a (c2 :: rest) with
    | [] => [c]
    | r :: rs => (c + a * r) :: r :: rs

/-- `horner_div` (divisor of grade 1).  Panics (`none`) on an empty dividend
(`lhs.len() - 1` underflows) or a zero `rhs[1]` (`Ratio` division by zero in
`-rhs[0] / rhs[1]`).  The `if rhs[1] != ONE` guard is modelled by dividing
unconditionally, which is the identity when `rhs[1] = 1`. -/
def hornerDiv (lhs rhs : List ℚ) : Option (List ℚ × ℚ) :=
  match rhs with
  | [r0, r1] =>
    if r1 = 0 then none
    else match lhs with
      | [] => none
      | _ =>
        let b := hornerPass (-r0 / r1) lhs
        some ((b.drop 1).map (· / r1), b.headD 0)
  | _ => none

/-- One elimination step of `long_div`: subtract `c · x^(l_g - r_g) · rhs`
from `lhs` (the in-place loop `lhs[l_g - k] -= c * rhs[r_g - k]`). -/
def subStep (lhs rhs : List ℚ) (c : ℚ) : List ℚ :=
  lhs.take (lhs.length - rhs.length) ++
    (lhs.drop (lhs.length - rhs.length)).zipWith (fun u v => u - c * v) rhs

/-- The trailing-zero popping loop of `long_div`. -/
def dropTrailingZeros (l : List ℚ) : List ℚ :=
  (l.reverse.dropWhile (fun c => decide (c = 0))).reverse

/-- The `while lhs.len() >= rhs.len()` loop of `long_div`, with the quotient
array `res` written at position `l_g - r_g` each iteration.  Division by a
zero leading divisor coefficient panics (`none`). -/
def longDivGo : ℕ → List ℚ → List ℚ → List ℚ → Option (List ℚ × List ℚ)
  | 0, _, _, _ => none
  | fuel + 1, lhs, rhs, res =>
    if lhs.length < rhs.length then some (res, lhs)
    else match rhs.getLast? with
      | none => none
      | some rl =>
        if rl = 0 then none
        else match lhs.getLast? with
          | none => none
          | some ll =>
            let c := ll / rl
            let pos := lhs.length - rhs.length
            longDivGo fuel (dropTrailingZeros (subStep lhs rhs c)) rhs (res.set pos c)

/-- `long_div`.  `lhs.len() - 1` / `rhs.len() - 1` underflow (panic) on empty
inputs; a dividend of lower grade returns `(vec![], lhs)` unchanged. -/
def longDiv (lhs rhs : List ℚ) : Option (List ℚ × List ℚ) :=
  match lhs, rhs with
  | [], _ => none
  | _, [] => none
  | _, _ =>
    if lhs.length < rhs.length then some ([], lhs)
    else longDivGo (lhs.length + 1) lhs rhs (List.replicate (lhs.length - rhs.length + 1) 0)

/-- `div`: dispatch on the divisor length.  Length 0 panics ("Division by 0");
length 1 is scalar division (division by a zero scalar panics, but an empty
dividend performs no division at all); length 2 is `horner_div` with the
remainder wrapped as `[]`/`[rem]`; otherwise `long_div`. -/
def divQ (lhs rhs : List ℚ) : Option (List ℚ × List ℚ) :=
  match rhs with
  | [] => none
  | [r0] =>
    if lhs = [] then some ([], [])
    else if r0 = 0 then none
    else some (lhs.map (· / r0), [])
  | [r0, r1] =>
    (hornerDiv lhs [r0, r1]).map (fun qr => (qr.1, if qr.2 = 0 then [] else [qr.2]))
  | _ => longDiv lhs rhs

/-- `Polynomial::div_rem`: convert both sides to exact rationals (panicking on
a non-representable coefficient) and run `div`.  The conversion back to `f64`
is the identity in the rational model. -/
def divRem (p q : List ℚ) : Option (List ℚ × List ℚ) :=
  match toRatios p, toRatios q with
  | some a, some b => divQ a b
  | _, _ => none

/-- Truncation toward zero of a rational, as `Ratio::trunc`. -/
def ratTrunc (q : ℚ) : ℤ := q.num.tdiv (q.den : ℤ)

/-- The `%` of `Ratio`: remainder of truncating division, sign of the
dividend (`a % b = a - b * trunc(a / b)`). -/
def ratRem (a b : ℚ) : ℚ := a - b * (ratTrunc (a / b) : ℚ)

/-- The Euclidean loop of the scalar `gcd` nested in `primitive`. -/
def sgcdGo : ℕ → ℚ → ℚ → Option ℚ
  | 0, _, _ => none
  | fuel + 1, a, b => if b = 0 then some a else sgcdGo fuel b (ratRem a b)

/-- The scalar `gcd` nested in `primitive`: swap so the loop starts with the
larger value, then Euclid with rational `%`.  The fuel is unreachable: each
iteration strictly shrinks `|b|` within a fixed discrete grid. -/
def sgcd (a b : ℚ) : Option ℚ :=
  if a < b then sgcdGo 1000000 b a else sgcdGo 1000000 a b

/-- `opposite_signs`: XOR of the numerators' sign bits. -/
def oppositeSigns (a b : ℚ) : Bool := decide (a.num < 0) != decide (b.num < 0)

/-- `primitive` (free function): fold the scalar gcd over the coefficients,
normalize its sign against the leading coefficient (`v.last().unwrap()`
panics on an empty slice), and divide through (`Ratio` division by a zero
content panics). -/
def primitiveQ (v : List ℚ) : Option (List ℚ × ℚ) :=
  match v.getLast? with
  | none => none
  | some lst =>
    match v.foldlM sgcd 0 with
    | none => none
    | some d0 =>
      let d := if oppositeSigns lst d0 then -d0 else d0
      if d = 0 then none else some (v.map (· / d), d)

/-- `Polynomial::primitive`: convert to ratios (panic on overflow), run
`primitive` and return the primitive part with the extracted content. -/
def primitiveP (p : List ℚ) : Option (List ℚ × ℚ) :=
  match toRatios p with
  | none => none
  | some r => primitiveQ r

/-- The Euclidean loop of the polynomial `gcd` (free function). -/
def gcdGo : ℕ → List ℚ → List ℚ → Option (List ℚ)
  | 0, _, _ => none
  | fuel + 1, r0, r1 =>
    if r1 = [] then (primitiveQ r0).map Prod.fst
    else match divQ r0 r1 with
      | none => none
      | some qr => gcdGo fuel r1 qr.2

/-- `gcd` (free function): order by length, Euclid until the remainder is
empty, normalize the result by `primitive`.  The fuel suffices because each
remainder is strictly shorter than its divisor. -/
def gcdQ (r0 r1 : List ℚ) : Option (List ℚ) :=
  if r0.length < r1.length then gcdGo (r0.length + 1) r1 r0
  else gcdGo (r1.length + 1) r0 r1

/-- `Polynomial::gcd`: the grade-0 degenerate conventions, then the rational
Euclidean algorithm. -/
def gcdP (p q : List ℚ) : Option (List ℚ) :=
  match p.length, q.length with
  | 1, 1 => some []
  | _, 1 => some p
  | 1, _ => some q
  | _, _ =>
    match toRatios p, toRatios q with
    | some a, some b => gcdQ a b
    | _, _ => none

/-- `Polynomial::gsfd` (square-free part): grade `≤ 0` is returned unchanged;
otherwise `p / gcd(p, p')` via `long_div`, normalized by `primitive`. -/
def gsfdP (p : List ℚ) : Option (List ℚ) :=
  if p.length ≤ 1 then some p
  else match toRatios p, toRatios (derivativeQ p) with
    | some s, some d =>
      match gcdQ s d with
      | none => none
      | some g =>
        match longDiv s g with
        | none => none
        | some qr =>
          match primitiveQ qr.1 with
          | none => none
          | some pr => some pr.1
    | _, _ => none

/-- `Polynomial::is_palindrome` / the nested `is_palindrome` in `roots.rs`:
`c_i = c_{grade - i}` for every index. -/
def isPalindrome (p : List ℚ) : Bool :=
  (List.range p.length).all (fun i => decide (idx p i = idx p (p.length - 1 - i)))

/-- `Float::negate` for `f64`: sign-preserving negation (avoids `-0.0`); on
rationals this coincides with negation. -/
def negateQ (q : ℚ) : ℚ := if q = 0 then 0 else -q

/-- `f64::signum` on a finite rational value (`+0.0` has signum `1`). -/
def signumQ (q : ℚ) : ℚ := if q < 0 then -1 else 1

/-! ## The root finder (src/roots.rs)

Root values go through `sqrt`, `acos`, `sin`, `cos` and `powf` and are
modelled as exact real numbers.  `f64` comparisons on values that the source
can only produce as finite reals are modelled by the real order (the
`partial_cmp … None` branch of the quadratic solver is unreachable there);
where the source relies on `NaN`/infinity propagation to reject a structural
match (the quasi-palindrome detector with a negative radicand or a zero
`p[3]`/`p[4]`), the rejection is made explicit. -/

open scoped Classical in
/-- `Float::near_zero`: strictly within the fixed tolerance `1e-15`. -/
noncomputable def nearZero (x : ℝ) : Prop := -(1 / 10 ^ 15) < x ∧ x < 1 / 10 ^ 15

/-- `Root { value, multiplicity }`. -/
structure RootR where
  value : ℝ
  multiplicity : ℤ

/-- `enum Roots { All, Some(Vec<Root>), None }`. -/
inductive Roots where
  | all : Roots
  | found : List RootR → Roots
  | noRoots : Roots

/-- `Roots::append`. -/
def Roots.append : Roots → RootR → Roots
  | .all, _ => .all
  | .found rs, r => .found (rs ++ [r])
  | .noRoots, r => .found [r]

/-- Sum of reported multiplicities. -/
def multSum (rs : List RootR) : ℤ := (rs.map (·.multiplicity)).sum

open scoped Classical

/-- `get_roots_order_two` on three (real) coefficients: the quadratic formula
with `delta = c1² - 2·(2·c2)·c0`.  `partial_cmp` returns `None` only for NaN,
which cannot arise for real operands, so the trichotomy is total. -/
noncomputable def getRootsOrderTwo (c0 c1 c2 : ℝ) : Roots :=
  let twoA := 2 * c2
  let delta := c1 * c1 - 2 * twoA * c0
  if delta < 0 then .noRoots
  else if delta = 0 then .found [⟨-c1 / twoA, 2⟩]
  else .found [⟨(-c1 - Real.sqrt delta) / twoA, 1⟩, ⟨(-c1 + Real.sqrt delta) / twoA, 1⟩]

/-- The `get_all_roots` helper of the biquadratic solver: a non-negative
`y`-root contributes `±√y` (only `√0 = 0` once when `y = 0`), a negative one
is dropped. -/
noncomputable def biqAll (roots : List RootR) : List RootR :=
  roots.flatMap (fun r =>
    if 0 < r.value then
      [⟨-Real.sqrt r.value, r.multiplicity⟩, ⟨Real.sqrt r.value, r.multiplicity⟩]
    else if r.value = 0 then [⟨Real.sqrt r.value, r.multiplicity⟩]
    else [])

/-- `get_roots_biquadratic`: grade exactly 4 with zero odd coefficients;
substitute `y = x²` and solve the quadratic `[p0, p2, p4]`. -/
noncomputable def getRootsBiquadratic (p : List ℚ) : Option Roots :=
  if p.length = 5 ∧ idx p 1 = 0 ∧ idx p 3 = 0 then
    some (match getRootsOrderTwo (idx p 0) (idx p 2) (idx p 4) with
      | .found roots => .found (biqAll roots)
      | _ => .noRoots)
  else none

/-- The per-`k` candidate of `get_roots_binomial`: the angle is
`(acos(-sign c0) + 2πk)/grade`, and the source keeps the candidate value
`r·cos φ` exactly when `sin φ` is NOT within tolerance of zero
(`if sin.abs().near_zero() { return None; }` skips the near-zero ones).
The loop-invariant values `r` and `φ0` are recomputed per candidate, which is
semantically identical to the source hoisting them out of the loop. -/
noncomputable def binomialCand (p : List ℚ) (k : ℕ) : Option ℝ :=
  let g := p.length - 1
  let ab : ℝ := |((-idx p 0 / idx p g : ℚ) : ℝ)| ^ ((1 : ℝ) / (g : ℝ))
  let phi : ℝ := (Real.arccos ((-signumQ (idx p 0) : ℚ) : ℝ) +
    Real.pi * ((2 * k : ℕ) : ℝ)) / (g : ℝ)
  if nearZero |Real.sin phi| then none else some (ab * Real.cos phi)

/-- `get_roots_binomial`: applies when all interior coefficients are zero;
collects the surviving candidates for `k = 0..grade-1`, each of
multiplicity 1 (no collapsing of equal values). -/
noncomputable def getRootsBinomial (p : List ℚ) : Option Roots :=
  if ((List.range (p.length - 1)).drop 1).any (fun i => decide (idx p i ≠ 0)) then none
  else
    if (List.range (p.length - 1)).filterMap (binomialCand p) = [] then some .noRoots
    else some (.found (((List.range (p.length - 1)).filterMap (binomialCand p)).map (⟨·, 1⟩)))

/-- `get_roots_quartic_quasi_palindrome`.  In the source `m = sqrt(p0/p4)` and
`m2 = p1/p3` are `f64` values compared with `==`: a negative radicand makes
`m` NaN, and `p4 = 0` or `p3 = 0` makes one side NaN or infinite, so the
detector rejects; those rejections are explicit here. -/
noncomputable def getRootsQuasiPalindrome (p : List ℚ) : Option Roots :=
  let msq : ℚ := idx p 0 / idx p 4
  if idx p 4 = 0 then none
  else if msq < 0 then none
  else if idx p 3 = 0 then none
  else
    let m : ℝ := Real.sqrt (msq : ℚ)
    if m ≠ ((idx p 1 / idx p 3 : ℚ) : ℝ) then none
    else
      match getRootsOrderTwo ((idx p 2 : ℝ) - 2 * (idx p 4 : ℝ) * m) (idx p 3) (idx p 4) with
      | .found qroots =>
        let roots := qroots.flatMap (fun r =>
          match getRootsOrderTwo m (-r.value) 1 with
          | .found rs => rs.map (fun qr => ⟨qr.value, qr.multiplicity * r.multiplicity⟩)
          | _ => [])
        some (if roots = [] then .noRoots else .found roots)
      | _ => some .noRoots

/-- The `3 if is_palindrome(p)` arm of `get_roots_palindrome`: divide by
`(x+1)`, assert the quotient has grade 2 and the remainder is zero, then —
the quotient is never used — solve the quadratic `[p0, p1, p2]` of `p`
itself and append the root `-1` only when that quadratic had real roots. -/
noncomputable def palinGrade3 (p : List ℚ) : Option (Option Roots) :=
  match divRem p [1, 1] with
  | none => none
  | some qr =>
    if qr.1.length ≠ 3 then none
    else if qr.2 ≠ [] then none
    else some (some (match getRootsOrderTwo (idx p 0) (idx p 1) (idx p 2) with
      | .found rs => (Roots.found rs).append ⟨-1, 1⟩
      | _ => .noRoots))

/-- Collapse the palindrome detector's result into the `get_roots_general`
outcome: a panic stays a panic, "no structural match" falls through to
`approximate_roots` whose body is `todo!()` — also a panic. -/
def flattenPal : Option (Option Roots) → Option Roots
  | some (some r) => some r
  | _ => none

/-- `get_roots_general` with explicit recursion fuel: the structural pipeline
biquadratic → binomial → palindrome, falling through to `approximate_roots`
whose body is `todo!()` (a panic, `none`).  The palindrome arm for odd grade
(`g % 2 == 1`, so positive even length) divides by `(x+1)`, asserts exact
divisibility, rejects quotients of grade above 4, and recurses. -/
noncomputable def getRootsGeneralF : ℕ → List ℚ → Option Roots
  | 0, _ => none
  | fuel + 1, p =>
    match getRootsBiquadratic p with
    | some r => some r
    | none =>
      match getRootsBinomial p with
      | some r => some r
      | none =>
        flattenPal
          (if p.length = 4 ∧ isPalindrome p then palinGrade3 p
           else if p.length = 5 then some (getRootsQuasiPalindrome p)
           else if p.length % 2 = 0 ∧ p.length ≠ 0 then
             match divRem p [1, 1] with
             | none => none
             | some qr =>
               if qr.2 ≠ [] then none
               else if 5 < qr.1.length then some none
               else match getRootsGeneralF fuel qr.1 with
                 | none => none
                 | some rs => some (some (rs.append ⟨-1, 1⟩))
           else some none)

/-- `get_roots_palindrome`, recursing through `get_roots_general` with the
given fuel; `none` is a panic, `some none` is "no structural match". -/
noncomputable def getRootsPalindromeF (fuel : ℕ) (p : List ℚ) : Option (Option Roots) :=
  if p.length = 4 ∧ isPalindrome p then palinGrade3 p
  else if p.length = 5 then some (getRootsQuasiPalindrome p)
  else if p.length % 2 = 0 ∧ p.length ≠ 0 then
    match divRem p [1, 1] with
    | none => none
    | some qr =>
      if qr.2 ≠ [] then none
      else if 5 < qr.1.length then some none
      else match getRootsGeneralF fuel qr.1 with
        | none => none
        | some rs => some (some (rs.append ⟨-1, 1⟩))
  else some none

/-- Horner evaluation `Polynomial::evaluate` at a real point:
`c0 + fold of v·(acc + c)` over the remaining coefficients from the top. -/
noncomputable def evalR (p : List ℚ) (v : ℝ) : ℝ :=
  match p with
  | [] => 0
  | c :: rest => (c : ℝ) + (rest.reverse.map (fun q : ℚ => (q : ℝ))).foldl (fun a c => v * (a + c)) 0

/-- `find_roots`: dispatch on the grade. -/
noncomputable def findRoots (p : List ℚ) : Option Roots :=
  match p.length with
  | 0 => some .all
  | 1 => some .noRoots
  | 2 => some (.found [⟨((negateQ (idx p 0) : ℚ) : ℝ) / ((idx p 1 : ℚ) : ℝ), 1⟩])
  | 3 => some (getRootsOrderTwo (idx p 0) (idx p 1) (idx p 2))
  | _ => getRootsGeneralF p.length p

/-! ## Helper lemmas -/

theorem toRatios_eq_none {p : List ℚ} (h : ¬ ∀ c ∈ p, rep32 c) : toRatios p = none := by
  unfold toRatios
  rw [if_neg]
  simp only [List.all_eq_true, decide_eq_true_eq]
  exact h

theorem toRatios_eq_some {p : List ℚ} (h : ∀ c ∈ p, rep32 c) : toRatios p = some p := by
  unfold toRatios
  rw [if_pos]
  simp only [List.all_eq_true, decide_eq_true_eq]
  exact h

theorem foldlM_sgcd_zero {l : List ℚ} (h : ∀ c ∈ l, c = 0) :
    l.foldlM sgcd (0 : ℚ) = some 0 := by
  induction l with
  | nil => rfl
  | cons c t ih =>
    have hc : c = 0 := h c (List.mem_cons_self c t)
    have : sgcd 0 c = some 0 := by rw [hc]; rfl
    simp only [List.foldlM_cons, this, Option.bind_eq_bind, Option.some_bind]
    exact ih (fun d hd => h d (List.mem_cons_of_mem c hd))

/-! ## Evaluation lemmas for the division identity -/

theorem evalQ_nil (x : ℚ) : evalQ [] x = 0 := rfl

theorem evalQ_cons (c : ℚ) (t : List ℚ) (x : ℚ) :
    evalQ (c :: t) x = c + x * evalQ t x := rfl

theorem evalQ_append (l1 l2 : List ℚ) (x : ℚ) :
    evalQ (l1 ++ l2) x = evalQ l1 x + x ^ l1.length * evalQ l2 x := by
  induction l1 with
  | nil => simp [evalQ_nil, evalQ]
  | cons c t ih =>
    simp only [List.cons_append, evalQ_cons, ih, List.length_cons]
    ring

theorem evalQ_all_zero {l : List ℚ} (h : ∀ c ∈ l, c = 0) (x : ℚ) : evalQ l x = 0 := by
  induction l with
  | nil => rfl
  | cons c t ih =>
    rw [evalQ_cons, h c (List.mem_cons_self c t),
      ih (fun d hd => h d (List.mem_cons_of_mem c hd))]
    ring

theorem evalQ_map_div (l : List ℚ) (k x : ℚ) :
    evalQ (l.map (· / k)) x = evalQ l x / k := by
  induction l with
  | nil => simp [evalQ_nil]
  | cons c t ih =>
    simp only [List.map_cons, evalQ_cons, ih]
    ring

theorem evalQ_zipWith_sub {l r : List ℚ} (c : ℚ) (h : l.length = r.length) (x : ℚ) :
    evalQ (List.zipWith (fun u v => u - c * v) l r) x = evalQ l x - c * evalQ r x := by
  induction l generalizing r with
  | nil =>
    cases r with
    | nil => simp [evalQ_nil]
    | cons b s => simp at h
  | cons a t ih =>
    cases r with
    | nil => simp at h
    | cons b s =>
      simp only [List.length_cons, Nat.succ.injEq] at h
      simp only [List.zipWith_cons_cons, evalQ_cons, ih h]
      ring

theorem evalQ_set (res : List ℚ) (pos : ℕ) (c x : ℚ) (hlen : pos < res.length)
    (hzero : res.getD pos 0 = 0) :
    evalQ (res.set pos c) x = evalQ res x + c * x ^ pos := by
  induction res generalizing pos with
  | nil => simp at hlen
  | cons a t ih =>
    cases pos with
    | zero =>
      have ha : a = 0 := by simpa [List.getD] using hzero
      subst ha
      simp only [List.set_cons_zero, evalQ_cons]
      ring
    | succ n =>
      simp only [List.length_cons, Nat.succ_lt_succ_iff] at hlen
      simp only [List.getD_cons_succ] at hzero
      simp only [List.set_cons_succ, evalQ_cons, ih n hlen hzero]
      ring

/-! ## Horner (synthetic) division correctness -/

theorem hornerPass_length (a : ℚ) : ∀ l : List ℚ, (hornerPass a l).length = l.length
  | [] => rfl
  | [_] => rfl
  | c :: c2 :: rest => by
    have ih := hornerPass_length a (c2 :: rest)
    unfold hornerPass
    cases hh : hornerPass a (c2 :: rest) with
    | nil => rw [hh] at ih; simp at ih
    | cons r rs =>
      rw [hh] at ih
      simpa using ih

theorem hornerPass_eval (a x : ℚ) : ∀ l : List ℚ,
    evalQ l x = (hornerPass a l).headD 0 + (x - a) * evalQ ((hornerPass a l).drop 1) x
  | [] => by simp [hornerPass, evalQ_nil]
  | [c] => by simp [hornerPass, evalQ_cons, evalQ_nil]
  | c :: c2 :: rest => by
    have ih := hornerPass_eval a x (c2 :: rest)
    have hlen := hornerPass_length a (c2 :: rest)
    unfold hornerPass
    cases hh : hornerPass a (c2 :: rest) with
    | nil => rw [hh] at hlen; simp at hlen
    | cons r rs =>
      rw [hh] at ih
      simp only [List.headD_cons, List.drop_one, List.tail_cons] at ih
      show evalQ (c :: c2 :: rest) x = (c + a * r) + (x - a) * evalQ (r :: rs) x
      rw [evalQ_cons, ih, evalQ_cons]
      ring

theorem hornerDiv_spec (lhs : List ℚ) (r0 r1 : ℚ) (h1 : r1 ≠ 0) (h0 : lhs ≠ []) :
    ∃ q rem, hornerDiv lhs [r0, r1] = some (q, rem) ∧
      q.length = lhs.length - 1 ∧
      ∀ x, evalQ lhs x = evalQ [r0, r1] x * evalQ q x + rem := by
  match lhs, h0 with
  | c :: t, _ =>
    refine ⟨((hornerPass (-r0 / r1) (c :: t)).drop 1).map (· / r1),
      (hornerPass (-r0 / r1) (c :: t)).headD 0, ?_, ?_, ?_⟩
    · show (if r1 = 0 then none
        else some (((hornerPass (-r0 / r1) (c :: t)).drop 1).map (· / r1),
          (hornerPass (-r0 / r1) (c :: t)).headD 0)) =
        some (((hornerPass (-r0 / r1) (c :: t)).drop 1).map (· / r1),
          (hornerPass (-r0 / r1) (c :: t)).headD 0)
      rw [if_neg h1]
    · rw [List.length_map, List.length_drop, hornerPass_length]
    · intro x
      have he := hornerPass_eval (-r0 / r1) x (c :: t)
      rw [he, evalQ_map_div]
      have : evalQ [r0, r1] x = r1 * (x - -r0 / r1) := by
        rw [evalQ_cons, evalQ_cons, evalQ_nil]
        field_simp
        ring
      rw [this]
      field_simp
      ring

/-! ## Long division correctness -/

theorem subStep_length {lhs rhs : List ℚ} (c : ℚ) (h : rhs.length ≤ lhs.length) :
    (subStep lhs rhs c).length = lhs.length := by
  unfold subStep
  rw [List.length_append, List.length_take, List.length_zipWith, List.length_drop]
  omega

theorem subStep_eval {lhs rhs : List ℚ} (c : ℚ) (h : rhs.length ≤ lhs.length) (x : ℚ) :
    evalQ (subStep lhs rhs c) x =
      evalQ lhs x - c * x ^ (lhs.length - rhs.length) * evalQ rhs x := by
  unfold subStep
  rw [evalQ_append, evalQ_zipWith_sub c (by rw [List.length_drop]; omega)]
  have hsplit : evalQ lhs x =
      evalQ (lhs.take (lhs.length - rhs.length)) x +
        x ^ (lhs.length - rhs.length) * evalQ (lhs.drop (lhs.length - rhs.length)) x := by
    conv_lhs => rw [← List.take_append_drop (lhs.length - rhs.length) lhs]
    rw [evalQ_append, List.length_take, Nat.min_def, if_pos (by omega)]
  rw [List.length_take, Nat.min_def, if_pos (by omega), hsplit]
  ring

theorem subStep_getLast {lhs rhs : List ℚ} {ll rl : ℚ}
    (hll : lhs.getLast? = some ll) (hrl : rhs.getLast? = some rl)
    (h : rhs.length ≤ lhs.length) :
    (subStep lhs rhs (ll / rl)).getLast? = some (ll - ll / rl * rl) := by
  have hrne : rhs ≠ [] := by
    intro he
    rw [he] at hrl
    simp at hrl
  have hrpos : 0 < rhs.length := List.length_pos.mpr hrne
  have hllen : 0 < lhs.length := by omega
  have hz : (List.zipWith (fun u v => u - (ll / rl) * v)
      (lhs.drop (lhs.length - rhs.length)) rhs).getLast? = some (ll - ll / rl * rl) := by
    have hlen : (List.zipWith (fun u v => u - (ll / rl) * v)
        (lhs.drop (lhs.length - rhs.length)) rhs).length = rhs.length := by
      rw [List.length_zipWith, List.length_drop]
      omega
    rw [List.getLast?_eq_getElem?, hlen]
    rw [List.getElem?_zipWith]
    have h1 : (lhs.drop (lhs.length - rhs.length))[rhs.length - 1]? = some ll := by
      rw [List.getElem?_drop]
      have he : lhs.length - rhs.length + (rhs.length - 1) = lhs.length - 1 := by omega
      rw [he, ← List.getLast?_eq_getElem?, hll]
    have h2 : rhs[rhs.length - 1]? = some rl := by
      conv_lhs => rw [show rhs.length - 1 = rhs.length - 1 from rfl]
      rw [← List.getLast?_eq_getElem?, hrl]
    rw [h1, h2]
  unfold subStep
  rw [List.getLast?_append, hz]
  rfl

theorem dropTrailingZeros_eval (l : List ℚ) (x : ℚ) :
    evalQ (dropTrailingZeros l) x = evalQ l x := by
  have hzeros : ∀ c ∈ (l.reverse.takeWhile (fun c => decide (c = 0))).reverse, c = 0 := by
    intro c hc
    rw [List.mem_reverse] at hc
    simpa using List.mem_takeWhile_imp hc
  have hsplit : l = dropTrailingZeros l ++
      (l.reverse.takeWhile (fun c => decide (c = 0))).reverse := by
    unfold dropTrailingZeros
    rw [← List.reverse_append, List.takeWhile_append_dropWhile, List.reverse_reverse]
  conv_rhs => rw [hsplit]
  rw [evalQ_append, evalQ_all_zero hzeros]
  ring

theorem dropTrailingZeros_length_lt {l : List ℚ} (h : l.getLast? = some 0) :
    (dropTrailingZeros l).length < l.length := by
  rw [List.getLast?_eq_head?_reverse] at h
  cases hrev : l.reverse with
  | nil => rw [hrev] at h; simp at h
  | cons a t =>
    rw [hrev] at h
    simp only [List.head?_cons, Option.some.injEq] at h
    unfold dropTrailingZeros
    rw [hrev, List.dropWhile_cons_of_pos (by simp [h])]
    have h1 := (List.dropWhile_sublist (l := t) (fun c => decide (c = 0))).length_le
    have h2 : l.length = t.length + 1 := by
      rw [← List.length_reverse l, hrev, List.length_cons]
    rw [List.length_reverse]
    omega

theorem getD_replicate_zero (n i : ℕ) : (List.replicate n (0 : ℚ)).getD i 0 = 0 := by
  rw [List.getD_eq_getElem?_getD, List.getElem?_replicate]
  by_cases h : i < n
  · rw [if_pos h]
    rfl
  · rw [if_neg h]
    rfl

theorem evalQ_replicate_zero (n : ℕ) (x : ℚ) : evalQ (List.replicate n 0) x = 0 :=
  evalQ_all_zero (by simp) x

theorem longDivGo_spec (fuel : ℕ) : ∀ lhs res : List ℚ, ∀ {rhs : List ℚ},
    lhs.length < fuel →
    rhs ≠ [] →
    (∀ rl, rhs.getLast? = some rl → rl ≠ 0) →
    (∀ i, i + rhs.length ≤ lhs.length → res.getD i 0 = 0) →
    lhs.length + 1 ≤ res.length + rhs.length →
    ∃ q rem, longDivGo fuel lhs rhs res = some (q, rem) ∧ rem.length < rhs.length ∧
      ∀ x, evalQ q x * evalQ rhs x + evalQ rem x =
        evalQ res x * evalQ rhs x + evalQ lhs x := by
  induction fuel with
  | zero =>
    intro lhs res rhs hf
    omega
  | succ f ih =>
    intro lhs res rhs hf hrne hlead hzeros hreslen
    by_cases hlt : lhs.length < rhs.length
    · refine ⟨res, lhs, ?_, hlt, fun x => rfl⟩
      unfold longDivGo
      rw [if_pos hlt]
    · push_neg at hlt
      obtain ⟨rl, hrl⟩ : ∃ rl, rhs.getLast? = some rl := by
        cases hr : rhs.getLast? with
        | none => exact absurd (List.getLast?_eq_none_iff.mp hr) hrne
        | some rl => exact ⟨rl, rfl⟩
      have hrlne : rl ≠ 0 := hlead rl hrl
      have hrpos : 0 < rhs.length := List.length_pos.mpr hrne
      have hlne : lhs ≠ [] := List.ne_nil_of_length_pos (by omega)
      obtain ⟨ll, hll⟩ : ∃ ll, lhs.getLast? = some ll := by
        cases hl : lhs.getLast? with
        | none => exact absurd (List.getLast?_eq_none_iff.mp hl) hlne
        | some ll => exact ⟨ll, rfl⟩
      have hsub_last : (subStep lhs rhs (ll / rl)).getLast? = some 0 := by
        rw [subStep_getLast hll hrl hlt]
        congr 1
        field_simp
      have hdec : (dropTrailingZeros (subStep lhs rhs (ll / rl))).length < lhs.length := by
        have hd := dropTrailingZeros_length_lt hsub_last
        rwa [subStep_length (ll / rl) hlt] at hd
      have hzeros2 : ∀ i,
          i + rhs.length ≤ (dropTrailingZeros (subStep lhs rhs (ll / rl))).length →
          (res.set (lhs.length - rhs.length) (ll / rl)).getD i 0 = 0 := by
        intro i hi
        have hine : i ≠ lhs.length - rhs.length := by omega
        rw [List.getD_eq_getElem?_getD, List.getElem?_set_ne (Ne.symm hine),
          ← List.getD_eq_getElem?_getD]
        exact hzeros i (by omega)
      have hreslen2 : (dropTrailingZeros (subStep lhs rhs (ll / rl))).length + 1 ≤
          (res.set (lhs.length - rhs.length) (ll / rl)).length + rhs.length := by
        rw [List.length_set]
        omega
      obtain ⟨q, rem, heq, hlen, hid⟩ :=
        ih (dropTrailingZeros (subStep lhs rhs (ll / rl)))
          (res.set (lhs.length - rhs.length) (ll / rl)) (by omega) hrne hlead hzeros2 hreslen2
      refine ⟨q, rem, ?_, hlen, ?_⟩
      · unfold longDivGo
        rw [if_neg (not_lt.mpr hlt), hrl]
        simp only [if_neg hrlne]
        rw [hll]
        exact heq
      · intro x
        have h1 := hid x
        have hpos_lt : lhs.length - rhs.length < res.length := by omega
        have hpos_zero : res.getD (lhs.length - rhs.length) 0 = 0 :=
          hzeros (lhs.length - rhs.length) (by omega)
        rw [evalQ_set res (lhs.length - rhs.length) (ll / rl) x hpos_lt hpos_zero,
          dropTrailingZeros_eval, subStep_eval (ll / rl) hlt] at h1
        rw [h1]
        ring

theorem longDiv_spec (lhs rhs : List ℚ) (hl : lhs ≠ []) (hr : rhs ≠ [])
    (hlead : ∀ rl, rhs.getLast? = some rl → rl ≠ 0) :
    ∃ q rem, longDiv lhs rhs = some (q, rem) ∧ rem.length < rhs.length ∧
      ∀ x, evalQ lhs x = evalQ rhs x * evalQ q x + evalQ rem x := by
  match lhs, hl, rhs, hr with
  | a :: t, _, b :: s, _ =>
    by_cases hlt : (a :: t).length < (b :: s).length
    · refine ⟨[], a :: t, ?_, hlt, fun x => by rw [evalQ_nil]; ring⟩
      unfold longDiv
      rw [if_pos hlt]
    · push_neg at hlt
      obtain ⟨q, rem, heq, hlen, hid⟩ :=
        longDivGo_spec ((a :: t).length + 1) (a :: t)
          (List.replicate ((a :: t).length - (b :: s).length + 1) 0)
          (by omega) (by simp) hlead
          (fun i _ => getD_replicate_zero _ i)
          (by rw [List.length_replicate]; omega)
      refine ⟨q, rem, ?_, hlen, ?_⟩
      · unfold longDiv
        rw [if_neg (not_lt.mpr hlt)]
        exact heq
      · intro x
        have h1 := hid x
        rw [evalQ_replicate_zero] at h1
        linear_combination -h1

theorem divQ_spec (lhs rhs : List ℚ) (hl : lhs ≠ []) (hr : rhs ≠ [])
    (hlead : ∀ rl, rhs.getLast? = some rl → rl ≠ 0) :
    ∃ q rem, divQ lhs rhs = some (q, rem) ∧ rem.length < rhs.length ∧
      ∀ x, evalQ lhs x = evalQ rhs x * evalQ q x + evalQ rem x := by
  match rhs, hr with
  | [r0], _ =>
    have hr0 : r0 ≠ 0 := hlead r0 rfl
    refine ⟨lhs.map (· / r0), [], ?_, by simp, fun x => ?_⟩
    · show (if lhs = [] then some (([] : List ℚ), ([] : List ℚ))
        else if r0 = 0 then none
        else some (lhs.map (· / r0), [])) = some (lhs.map (· / r0), [])
      rw [if_neg hl, if_neg hr0]
    · rw [evalQ_map_div, evalQ_nil, evalQ_cons, evalQ_nil]
      field_simp
  | [r0, r1], _ =>
    have hr1 : r1 ≠ 0 := hlead r1 rfl
    obtain ⟨q, rem, heq, hqlen, hid⟩ := hornerDiv_spec lhs r0 r1 hr1 hl
    refine ⟨q, if rem = 0 then [] else [rem], ?_, ?_, fun x => ?_⟩
    · show (hornerDiv lhs [r0, r1]).map
        (fun qr => (qr.1, if qr.2 = 0 then [] else [qr.2])) =
        some (q, if rem = 0 then [] else [rem])
      rw [heq]
      rfl
    · by_cases h : rem = 0
      · rw [if_pos h]
        simp
      · rw [if_neg h]
        simp
    · rw [hid x]
      by_cases h : rem = 0
      · rw [if_pos h, evalQ_nil, h]
      · rw [if_neg h]
        simp only [evalQ_cons, evalQ_nil]
        ring
  | b1 :: b2 :: b3 :: s, _ =>
    obtain ⟨q, rem, heq, hlen, hid⟩ :=
      longDiv_spec lhs (b1 :: b2 :: b3 :: s) hl (by simp) hlead
    exact ⟨q, rem, heq, hlen, hid⟩

/-! ## Claim C4 — division with remainder -/

/-- Claim C4 counterexample: with the zero polynomial as dividend and the
canonical non-zero divisor `x`, `div_rem` panics (`lhs.len() - 1` underflows
inside `horner_div`) instead of returning a quotient/remainder pair. -/
theorem c4_zero_dividend_panics :
    divRem ([] : List ℚ) [0, 1] = none ∧ ([0, 1] : List ℚ) ≠ [] ∧
      canonical [(0 : ℚ), 1] := by decide

/-- Claim C4 (amended): for a non-zero dividend and a canonical non-zero
divisor, both with representable coefficients, `div_rem` returns a quotient
and remainder satisfying `dividend = divisor * quotient + remainder` (as
polynomial functions) with `grade remainder < grade divisor`. -/
theorem c4_div_rem_spec (dd dv : List ℚ) (hdd : dd ≠ []) (hdv : dv ≠ [])
    (hcan : canonical dv) (h1 : ∀ c ∈ dd, rep32 c) (h2 : ∀ c ∈ dv, rep32 c) :
    ∃ q rem, divRem dd dv = some (q, rem) ∧
      (∀ x : ℚ, evalQ dd x = evalQ dv x * evalQ q x + evalQ rem x) ∧
      grade rem < grade dv := by
  obtain ⟨q, rem, heq, hlen, hid⟩ := divQ_spec dd dv hdd hdv hcan
  refine ⟨q, rem, ?_, hid, ?_⟩
  · unfold divRem
    rw [toRatios_eq_some h1, toRatios_eq_some h2]
    exact heq
  · unfold grade
    omega

/-- Claim C4 witness: the amended statement at the repository's own Horner
division example `(8x³ - 2x² + x + 2) / (2x - 1)`. -/
theorem c4_witness :
    ∃ q rem, divRem [2, 1, -2, 8] [-1, 2] = some (q, rem) ∧
      (∀ x : ℚ, evalQ [2, 1, -2, 8] x = evalQ [-1, 2] x * evalQ q x + evalQ rem x) ∧
      grade rem < grade [-1, 2] :=
  c4_div_rem_spec [2, 1, -2, 8] [-1, 2] (by decide) (by decide) (by decide)
    (by decide) (by decide)

/-! ## Multiplicity bookkeeping (Claim C5) -/

theorem multSum_nil : multSum [] = 0 := rfl

theorem multSum_cons (r : RootR) (t : List RootR) :
    multSum (r :: t) = r.multiplicity + multSum t := by
  unfold multSum
  simp

theorem multSum_append (a b : List RootR) : multSum (a ++ b) = multSum a + multSum b := by
  unfold multSum
  simp

theorem multSum_flatMap (rs : List RootR) (f : RootR → List RootR) :
    multSum (rs.flatMap f) = (rs.map (fun r => multSum (f r))).sum := by
  induction rs with
  | nil => rfl
  | cons r t ih => simp [List.flatMap_cons, multSum_append, ih]

theorem multSum_map_one (vals : List ℝ) :
    multSum (vals.map (fun v => RootR.mk v 1)) = vals.length := by
  induction vals with
  | nil => rfl
  | cons v t ih =>
    rw [List.map_cons, multSum_cons, ih]
    simp
    omega

theorem multSum_map_scale (rs : List RootR) (k : ℤ) :
    multSum (rs.map (fun qr => RootR.mk qr.value (qr.multiplicity * k))) = multSum rs * k := by
  induction rs with
  | nil => simp [multSum_nil]
  | cons r t ih =>
    rw [List.map_cons, multSum_cons, ih, multSum_cons]
    ring

theorem getRootsOrderTwo_found {c0 c1 c2 : ℝ} {rs : List RootR}
    (h : getRootsOrderTwo c0 c1 c2 = .found rs) :
    multSum rs ≤ 2 ∧ ∀ r ∈ rs, 1 ≤ r.multiplicity := by
  unfold getRootsOrderTwo at h
  simp only [] at h
  split_ifs at h
  · injection h with h2
    subst h2
    refine ⟨by simp [multSum_cons, multSum_nil], ?_⟩
    intro r hr
    simp at hr
    subst hr
    exact one_le_two
  · injection h with h2
    subst h2
    refine ⟨by simp [multSum_cons, multSum_nil], ?_⟩
    intro r hr
    simp at hr
    rcases hr with hr | hr <;> (subst hr; exact le_refl 1)

theorem multSum_biqAll {rs : List RootR} (hpos : ∀ r ∈ rs, 1 ≤ r.multiplicity) :
    multSum (biqAll rs) ≤ 2 * multSum rs := by
  induction rs with
  | nil => simp [biqAll, multSum_nil]
  | cons r t ih =>
    have hr1 : 1 ≤ r.multiplicity := hpos r (List.mem_cons_self r t)
    have iht := ih (fun d hd => hpos d (List.mem_cons_of_mem r hd))
    have hstep : biqAll (r :: t) = (if 0 < r.value then
          [RootR.mk (-Real.sqrt r.value) r.multiplicity,
            RootR.mk (Real.sqrt r.value) r.multiplicity]
        else if r.value = 0 then [RootR.mk (Real.sqrt r.value) r.multiplicity]
        else []) ++ biqAll t := by
      unfold biqAll
      rw [List.flatMap_cons]
    rw [hstep, multSum_append, multSum_cons]
    have hhead : multSum
        (if 0 < r.value then
          [RootR.mk (-Real.sqrt r.value) r.multiplicity,
            RootR.mk (Real.sqrt r.value) r.multiplicity]
        else if r.value = 0 then [RootR.mk (Real.sqrt r.value) r.multiplicity]
        else []) ≤ 2 * r.multiplicity := by
      split_ifs
      · simp [multSum_cons, multSum_nil]
        omega
      · simp [multSum_cons, multSum_nil]
        omega
      · simp [multSum_nil]
        omega
    omega

theorem getRootsBiquadratic_found {p : List ℚ} {rs : List RootR}
    (h : getRootsBiquadratic p = some (.found rs)) : multSum rs ≤ grade p := by
  unfold getRootsBiquadratic at h
  split_ifs at h with hg
  · cases ho : getRootsOrderTwo ((idx p 0 : ℝ)) ((idx p 2 : ℝ)) ((idx p 4 : ℝ)) with
    | found roots =>
      rw [ho] at h
      have h2 : some (Roots.found (biqAll roots)) = some (Roots.found rs) := h
      obtain rfl : biqAll roots = rs := by simpa using h2
      obtain ⟨hsum, hpos⟩ := getRootsOrderTwo_found ho
      have := multSum_biqAll hpos
      have hgr : grade p = 4 := by
        unfold grade
        omega
      rw [hgr]
      omega
    | all =>
      rw [ho] at h
      have h2 : some Roots.noRoots = some (Roots.found rs) := h
      simp at h2
    | noRoots =>
      rw [ho] at h
      have h2 : some Roots.noRoots = some (Roots.found rs) := h
      simp at h2

theorem getRootsBinomial_found {p : List ℚ} {rs : List RootR}
    (h : getRootsBinomial p = some (.found rs)) : multSum rs ≤ grade p := by
  unfold getRootsBinomial at h
  split_ifs at h with h1 h2
  · exact absurd h (by simp)
  · obtain rfl : ((List.range (p.length - 1)).filterMap (binomialCand p)).map
        (fun v => RootR.mk v 1) = rs := by
      simpa using h
    rw [multSum_map_one]
    have hle := List.length_filterMap_le (binomialCand p) (List.range (p.length - 1))
    rw [List.length_range] at hle
    have hne : ¬ (p.length - 1 = 0) := by
      intro h0
      rw [h0] at h2
      exact h2 (by simp [List.range_zero])
    unfold grade
    omega

theorem sum_map_double (l : List RootR) :
    (l.map (fun r => 2 * r.multiplicity)).sum = 2 * multSum l := by
  induction l with
  | nil => simp [multSum_nil]
  | cons r t ih =>
    rw [List.map_cons, List.sum_cons, ih, multSum_cons]
    ring

theorem flattenPal_eq_some {X : Option (Option Roots)} {r : Roots} :
    flattenPal X = some r ↔ X = some (some r) := by
  cases X with
  | none => simp [flattenPal]
  | some o =>
    cases o with
    | none => simp [flattenPal]
    | some r' => simp [flattenPal]

theorem getRootsGeneralF_succ (fuel : ℕ) (p : List ℚ) :
    getRootsGeneralF (fuel + 1) p =
      (match getRootsBiquadratic p with
      | some r => some r
      | none =>
        match getRootsBinomial p with
        | some r => some r
        | none => flattenPal (getRootsPalindromeF fuel p)) := rfl

theorem getRootsQuasiPalindrome_found {p : List ℚ} {rs : List RootR}
    (h : getRootsQuasiPalindrome p = some (.found rs)) : multSum rs ≤ 4 := by
  unfold getRootsQuasiPalindrome at h
  simp only [] at h
  split_ifs at h with h1 h2 h3 h4
  cases ho : getRootsOrderTwo
      ((idx p 2 : ℝ) - 2 * (idx p 4 : ℝ) * Real.sqrt ((idx p 0 / idx p 4 : ℚ) : ℝ))
      ((idx p 3 : ℝ)) ((idx p 4 : ℝ)) with
  | found qroots =>
    rw [ho] at h
    obtain ⟨hsum, hpos⟩ := getRootsOrderTwo_found ho
    have h2' : some (if qroots.flatMap (fun r =>
        match getRootsOrderTwo (Real.sqrt ((idx p 0 / idx p 4 : ℚ) : ℝ)) (-r.value) 1 with
        | .found rs' => rs'.map (fun qr => RootR.mk qr.value (qr.multiplicity * r.multiplicity))
        | _ => []) = [] then Roots.noRoots
      else Roots.found (qroots.flatMap (fun r =>
        match getRootsOrderTwo (Real.sqrt ((idx p 0 / idx p 4 : ℚ) : ℝ)) (-r.value) 1 with
        | .found rs' => rs'.map (fun qr => RootR.mk qr.value (qr.multiplicity * r.multiplicity))
        | _ => []))) = some (Roots.found rs) := h
    split_ifs at h2' with he
    · simp at h2'
    · obtain rfl : qroots.flatMap (fun r =>
          match getRootsOrderTwo (Real.sqrt ((idx p 0 / idx p 4 : ℚ) : ℝ)) (-r.value) 1 with
          | .found rs' => rs'.map (fun qr => RootR.mk qr.value (qr.multiplicity * r.multiplicity))
          | _ => []) = rs := by
        injection h2' with h3'
        injection h3' with h4'
      rw [multSum_flatMap]
      have hb : ∀ r ∈ qroots, multSum
          (match getRootsOrderTwo (Real.sqrt ((idx p 0 / idx p 4 : ℚ) : ℝ)) (-r.value) 1 with
          | .found rs' => rs'.map (fun qr => RootR.mk qr.value (qr.multiplicity * r.multiplicity))
          | _ => []) ≤ 2 * r.multiplicity := by
        intro r hr
        have hr1 : 1 ≤ r.multiplicity := hpos r hr
        cases hi : getRootsOrderTwo (Real.sqrt ((idx p 0 / idx p 4 : ℚ) : ℝ)) (-r.value) 1 with
        | found rs' =>
          show multSum (rs'.map (fun qr => RootR.mk qr.value (qr.multiplicity * r.multiplicity))) ≤
            2 * r.multiplicity
          rw [multSum_map_scale]
          have hs := (getRootsOrderTwo_found hi).1
          have : multSum rs' * r.multiplicity ≤ 2 * r.multiplicity :=
            mul_le_mul_of_nonneg_right hs (by omega)
          omega
        | all =>
          show multSum [] ≤ 2 * r.multiplicity
          rw [multSum_nil]
          omega
        | noRoots =>
          show multSum [] ≤ 2 * r.multiplicity
          rw [multSum_nil]
          omega
      calc (qroots.map (fun r => multSum
            (match getRootsOrderTwo (Real.sqrt ((idx p 0 / idx p 4 : ℚ) : ℝ)) (-r.value) 1 with
            | .found rs' => rs'.map (fun qr => RootR.mk qr.value (qr.multiplicity * r.multiplicity))
            | _ => []))).sum
          ≤ (qroots.map (fun r => 2 * r.multiplicity)).sum := List.sum_le_sum hb
        _ = 2 * multSum qroots := sum_map_double qroots
        _ ≤ 4 := by omega
  | all =>
    rw [ho] at h
    have h2' : some Roots.noRoots = some (Roots.found rs) := h
    simp at h2'
  | noRoots =>
    rw [ho] at h
    have h2' : some Roots.noRoots = some (Roots.found rs) := h
    simp at h2'

theorem palinGrade3_found {p : List ℚ} {rs : List RootR}
    (h : palinGrade3 p = some (some (.found rs))) : multSum rs ≤ 3 := by
  unfold palinGrade3 at h
  cases hd : divRem p [1, 1] with
  | none =>
    rw [hd] at h
    exact absurd h (by simp)
  | some qr =>
    rw [hd] at h
    have h' : (if qr.1.length ≠ 3 then none
        else if qr.2 ≠ [] then (none : Option (Option Roots))
        else some (some (match getRootsOrderTwo ((idx p 0 : ℝ)) ((idx p 1 : ℝ))
            ((idx p 2 : ℝ)) with
          | .found rs0 => (Roots.found rs0).append (RootR.mk (-1) 1)
          | _ => .noRoots))) = some (some (Roots.found rs)) := h
    clear h
    split_ifs at h' with e1 e2
    cases ho : getRootsOrderTwo ((idx p 0 : ℝ)) ((idx p 1 : ℝ)) ((idx p 2 : ℝ)) with
    | found rs' =>
      rw [ho] at h'
      have h2 : some (some ((Roots.found rs').append (RootR.mk (-1) 1))) =
          some (some (Roots.found rs)) := h'
      have h3 : rs' ++ [RootR.mk (-1) 1] = rs := by
        simpa [Roots.append] using h2
      subst h3
      rw [multSum_append]
      have hs := (getRootsOrderTwo_found ho).1
      simp only [multSum_cons, multSum_nil]
      omega
    | all =>
      rw [ho] at h'
      have h2 : some (some Roots.noRoots) = some (some (Roots.found rs)) := h'
      simp at h2
    | noRoots =>
      rw [ho] at h'
      have h2 : some (some Roots.noRoots) = some (some (Roots.found rs)) := h'
      simp at h2

theorem toRatios_some_eq {p a : List ℚ} (h : toRatios p = some a) : a = p := by
  unfold toRatios at h
  split at h
  · simpa using h.symm
  · exact absurd h (by simp)

theorem hornerDiv_fst_length {lhs : List ℚ} {r0 r1 : ℚ} {pr : List ℚ × ℚ}
    (h : hornerDiv lhs [r0, r1] = some pr) : pr.1.length = lhs.length - 1 := by
  have h0 : (if r1 = 0 then none
      else match lhs with
        | [] => none
        | _ => some (((hornerPass (-r0 / r1) lhs).drop 1).map (· / r1),
            (hornerPass (-r0 / r1) lhs).headD 0)) = some pr := h
  clear h
  rename' h0 => h
  split_ifs at h with h1
  match lhs, h with
  | [], h => exact absurd h (by simp)
  | c :: t, h =>
    have h2 : some (((hornerPass (-r0 / r1) (c :: t)).drop 1).map (· / r1),
        (hornerPass (-r0 / r1) (c :: t)).headD 0) = some pr := h
    obtain rfl : _ = pr := Option.some.inj h2
    rw [List.length_map, List.length_drop, hornerPass_length]

theorem divRem_x_plus_one_fst_length {p : List ℚ} {qr : List ℚ × List ℚ}
    (h : divRem p [1, 1] = some qr) : qr.1.length = p.length - 1 := by
  unfold divRem at h
  cases ht : toRatios p with
  | none =>
    rw [ht] at h
    exact absurd h (by simp)
  | some a =>
    obtain rfl : p = a := (toRatios_some_eq ht).symm
    rw [ht, show toRatios [(1 : ℚ), 1] = some [1, 1] from rfl] at h
    have h2 : (hornerDiv p [1, 1]).map
        (fun qr => (qr.1, if qr.2 = 0 then [] else [qr.2])) = some qr := h
    cases hh : hornerDiv p [1, 1] with
    | none =>
      rw [hh] at h2
      exact absurd h2 (by simp)
    | some pr =>
      rw [hh] at h2
      have hq1 : pr.1 = qr.1 := by
        have h3 := Option.some.inj h2
        rw [← h3]
      rw [← hq1]
      exact hornerDiv_fst_length hh

theorem getRootsGeneralF_found (fuel : ℕ) : ∀ {p : List ℚ} {rs : List RootR},
    getRootsGeneralF fuel p = some (.found rs) → multSum rs ≤ grade p := by
  induction fuel with
  | zero =>
    intro p rs h
    exact absurd h (by simp [getRootsGeneralF])
  | succ f ih =>
    intro p rs h
    rw [getRootsGeneralF_succ] at h
    cases hb : getRootsBiquadratic p with
    | some r =>
      rw [hb] at h
      obtain rfl : r = Roots.found rs := by simpa using h
      exact getRootsBiquadratic_found hb
    | none =>
      rw [hb] at h
      cases hbin : getRootsBinomial p with
      | some r =>
        rw [hbin] at h
        obtain rfl : r = Roots.found rs := by simpa using h
        exact getRootsBinomial_found hbin
      | none =>
        rw [hbin] at h
        have hpal : getRootsPalindromeF f p = some (some (.found rs)) := by
          have h2 : flattenPal (getRootsPalindromeF f p) = some (.found rs) := h
          exact flattenPal_eq_some.mp h2
        unfold getRootsPalindromeF at hpal
        split_ifs at hpal with hc1 hc2 hc3
        · have hg : grade p = 3 := by
            unfold grade
            omega
          rw [hg]
          exact palinGrade3_found hpal
        · have hg : grade p = 4 := by
            unfold grade
            omega
          rw [hg]
          have hq : getRootsQuasiPalindrome p = some (.found rs) := by
            simpa using hpal
          exact getRootsQuasiPalindrome_found hq
        · cases hd : divRem p [1, 1] with
          | none =>
            rw [hd] at hpal
            exact absurd hpal (by simp)
          | some qr =>
            rw [hd] at hpal
            have hpal2 : (if qr.2 ≠ [] then none
                else if 5 < qr.1.length then some none
                else match getRootsGeneralF f qr.1 with
                  | none => none
                  | some rs0 => some (some (rs0.append (RootR.mk (-1) 1)))) =
                some (some (Roots.found rs)) := hpal
            clear hpal
            rename' hpal2 => hpal
            split_ifs at hpal with e1 e2
            · exact absurd hpal (by simp)
            have hqlen := divRem_x_plus_one_fst_length hd
            cases hg : getRootsGeneralF f qr.1 with
            | none =>
              rw [hg] at hpal
              exact absurd hpal (by simp)
            | some rs' =>
              rw [hg] at hpal
              cases rs' with
              | all =>
                have h2 : some (some Roots.all) = some (some (Roots.found rs)) := by
                  simp only [Roots.append] at hpal
                  exact hpal
                simp at h2
              | noRoots =>
                have h2 : [RootR.mk (-1) 1] = rs := by
                  simpa [Roots.append] using hpal
                subst h2
                have : 2 ≤ p.length := by omega
                unfold grade
                simp only [multSum_cons, multSum_nil]
                omega
              | found rs'' =>
                have h2 : rs'' ++ [RootR.mk (-1) 1] = rs := by
                  simpa [Roots.append] using hpal
                subst h2
                have hihs := ih hg
                rw [multSum_append]
                simp only [multSum_cons, multSum_nil]
                unfold grade at hihs ⊢
                have h2len : 2 ≤ p.length := by omega
                have hql : qr.1.length = p.length - 1 := hqlen
                omega
        · exact absurd hpal (by simp)

/-! ## Claim C5 — sum of multiplicities bounded by the grade -/

/-- Claim C5: whenever `find_roots` returns the `Found`/`Some` variant, the
sum of the reported multiplicities is at most the grade of the polynomial. -/
theorem c5_mult_sum_le_grade (p : List ℚ) (rs : List RootR)
    (h : findRoots p = some (.found rs)) : multSum rs ≤ grade p := by
  match hl : p, h with
  | [], h =>
    have h2 : some Roots.all = some (Roots.found rs) := h
    simp at h2
  | [c0], h =>
    have h2 : some Roots.noRoots = some (Roots.found rs) := h
    simp at h2
  | [c0, c1], h =>
    have h2 : some (Roots.found [RootR.mk
        (((negateQ (idx [c0, c1] 0) : ℚ) : ℝ) / ((idx [c0, c1] 1 : ℚ) : ℝ)) 1]) =
        some (Roots.found rs) := h
    have h3 : [RootR.mk (((negateQ (idx [c0, c1] 0) : ℚ) : ℝ) /
        ((idx [c0, c1] 1 : ℚ) : ℝ)) 1] = rs := by
      simpa using h2
    subst h3
    simp [multSum_cons, multSum_nil, grade]
  | [c0, c1, c2], h =>
    have h2 : getRootsOrderTwo ((idx [c0, c1, c2] 0 : ℝ)) ((idx [c0, c1, c2] 1 : ℝ))
        ((idx [c0, c1, c2] 2 : ℝ)) = Roots.found rs := by
      have h3 : some (getRootsOrderTwo ((idx [c0, c1, c2] 0 : ℝ)) ((idx [c0, c1, c2] 1 : ℝ))
          ((idx [c0, c1, c2] 2 : ℝ))) = some (Roots.found rs) := h
      exact Option.some.inj h3
    have := (getRootsOrderTwo_found h2).1
    unfold grade
    simp only [List.length_cons, List.length_nil]
    omega
  | c0 :: c1 :: c2 :: c3 :: t, h =>
    have h2 : getRootsGeneralF (c0 :: c1 :: c2 :: c3 :: t).length
        (c0 :: c1 :: c2 :: c3 :: t) = some (.found rs) := h
    exact getRootsGeneralF_found _ h2

/-- Claim C5 witness: `find_roots` on `x² - 1` reports the roots `±1` with
total multiplicity `2 = grade`. -/
theorem c5_witness : multSum [RootR.mk (-1) 1, RootR.mk 1 1] ≤ grade [-1, 0, 1] :=
  c5_mult_sum_le_grade [-1, 0, 1] [RootR.mk (-1) 1, RootR.mk 1 1] (by
    unfold findRoots
    have h4 : Real.sqrt ((0 : ℝ) * 0 - 2 * (2 * ((1 : ℚ) : ℝ)) * ((-1 : ℚ) : ℝ)) = 2 := by
      have : ((0 : ℝ) * 0 - 2 * (2 * ((1 : ℚ) : ℝ)) * ((-1 : ℚ) : ℝ)) = 2 ^ 2 := by
        push_cast
        ring
      rw [this, Real.sqrt_sq (by norm_num)]
    unfold getRootsOrderTwo
    simp only []
    have hv : ((idx [(-1 : ℚ), 0, 1] 1 : ℚ) : ℝ) = 0 := by norm_num [idx]
    have hv2 : ((idx [(-1 : ℚ), 0, 1] 2 : ℚ) : ℝ) = 1 := by norm_num [idx]
    have hv0 : ((idx [(-1 : ℚ), 0, 1] 0 : ℚ) : ℝ) = -1 := by norm_num [idx]
    rw [hv, hv2, hv0]
    rw [if_neg (by norm_num), if_neg (by norm_num)]
    have hs : Real.sqrt (0 * 0 - 2 * (2 * 1) * (-1)) = 2 := by
      have he : (0 * 0 - 2 * (2 * 1) * (-1) : ℝ) = 2 ^ 2 := by ring
      rw [he, Real.sqrt_sq (by norm_num)]
    rw [hs]
    norm_num)

theorem binomialCand_cube_zero : binomialCand [-1, 0, 0, 1] 0 = none := by
  unfold binomialCand
  simp only [idx]
  norm_num [signumQ]
  intro h
  exact absurd (show nearZero 0 by norm_num [nearZero]) h

theorem binomialCand_cube_one : binomialCand [-1, 0, 0, 1] 1 = some (-(1/2)) := by
  unfold binomialCand
  simp only [idx]
  norm_num [signumQ]
  constructor
  · rw [show Real.pi * 2 / 3 = Real.pi - Real.pi / 3 by ring, Real.sin_pi_sub,
      Real.sin_pi_div_three, abs_of_nonneg (by positivity)]
    intro hnz
    obtain ⟨_, hlt⟩ := hnz
    have h1 : (1 : ℝ) ≤ Real.sqrt 3 := by
      rw [show (1 : ℝ) = Real.sqrt 1 from (Real.sqrt_one).symm]
      exact Real.sqrt_le_sqrt (by norm_num)
    norm_num at hlt
    linarith
  · rw [show Real.pi * 2 / 3 = Real.pi - Real.pi / 3 by ring, Real.cos_pi_sub,
      Real.cos_pi_div_three]

theorem binomialCand_cube_two : binomialCand [-1, 0, 0, 1] 2 = some (-(1/2)) := by
  unfold binomialCand
  simp only [idx]
  norm_num [signumQ]
  constructor
  · rw [show Real.pi * 4 / 3 = Real.pi / 3 + Real.pi by ring, Real.sin_add_pi,
      abs_neg, Real.sin_pi_div_three, abs_of_nonneg (by positivity)]
    intro hnz
    obtain ⟨_, hlt⟩ := hnz
    have h1 : (1 : ℝ) ≤ Real.sqrt 3 := by
      rw [show (1 : ℝ) = Real.sqrt 1 from (Real.sqrt_one).symm]
      exact Real.sqrt_le_sqrt (by norm_num)
    norm_num at hlt
    linarith
  · rw [show Real.pi * 4 / 3 = Real.pi / 3 + Real.pi by ring, Real.cos_add_pi,
      Real.cos_pi_div_three]

theorem getRootsBinomial_cube :
    getRootsBinomial [-1, 0, 0, 1] =
      some (.found [RootR.mk (-(1/2)) 1, RootR.mk (-(1/2)) 1]) := by
  unfold getRootsBinomial
  rw [if_neg (by decide)]
  have hv : (List.range (([(-1 : ℚ), 0, 0, 1]).length - 1)).filterMap
      (binomialCand [-1, 0, 0, 1]) = [-(1/2), -(1/2)] := by
    rw [show List.range (([(-1 : ℚ), 0, 0, 1]).length - 1) = [0, 1, 2] from rfl]
    simp [List.filterMap_cons, binomialCand_cube_zero, binomialCand_cube_one,
      binomialCand_cube_two]
  rw [hv]
  rw [if_neg (by simp)]
  rfl

theorem findRoots_cube :
    findRoots [-1, 0, 0, 1] =
      some (.found [RootR.mk (-(1/2)) 1, RootR.mk (-(1/2)) 1]) := by
  show getRootsGeneralF 4 [-1, 0, 0, 1] = _
  rw [show (4 : ℕ) = 3 + 1 from rfl, getRootsGeneralF_succ,
    show getRootsBiquadratic [-1, 0, 0, 1] = none from rfl, getRootsBinomial_cube]

theorem evalR_cube : evalR [-1, 0, 0, 1] (-(1/2)) = -(9/8) := by
  unfold evalR
  norm_num

/-! ## Claims C1 and C2 — the binomial solver on x^3 - 1 -/

/-- Claim C1 (code bug): on `x³ - 1` the binomial solver reports the root
`-1/2` (twice), yet evaluating the polynomial there gives `-9/8`, which is
nowhere near the tolerance of zero.  The spec's property "every reported root
evaluates within tolerance of zero" is violated because the solver's
`near_zero` filter is inverted. -/
theorem c1_reported_root_not_near_zero :
    findRoots [-1, 0, 0, 1] =
      some (.found [RootR.mk (-(1/2)) 1, RootR.mk (-(1/2)) 1]) ∧
      evalR [-1, 0, 0, 1] (-(1/2)) = -(9/8) ∧
      ¬ nearZero (-(9/8) : ℝ) := by
  refine ⟨findRoots_cube, evalR_cube, ?_⟩
  intro hnz
  obtain ⟨hgt, _⟩ := hnz
  norm_num [nearZero] at hgt

/-- Claim C2 (code bug): `find_roots` on `x³ - 1` (coefficients
`[-1, 0, 0, 1]`) does not return the single real root `1`; it drops the
`k = 0` candidate whose `sin` is near zero (the real one) and keeps the two
complex candidates as `-1/2` with multiplicity 1 each, with no collapsing of
the equal values. -/
theorem c2_binomial_filter_inverted :
    findRoots [-1, 0, 0, 1] =
      some (.found [RootR.mk (-(1/2)) 1, RootR.mk (-(1/2)) 1]) ∧
      findRoots [-1, 0, 0, 1] ≠ some (.found [RootR.mk 1 1]) := by
  refine ⟨findRoots_cube, ?_⟩
  rw [findRoots_cube]
  intro h
  simp at h

theorem rootsOrderTwo_c3 :
    getRootsOrderTwo ((idx [(2 : ℚ), -1, -1, 2] 0 : ℝ)) ((idx [(2 : ℚ), -1, -1, 2] 1 : ℝ))
      ((idx [(2 : ℚ), -1, -1, 2] 2 : ℝ)) = .found [RootR.mk 1 1, RootR.mk (-2) 1] := by
  unfold getRootsOrderTwo
  simp only [idx]
  norm_num
  have h9 : Real.sqrt 9 = 3 := by
    rw [show (9 : ℝ) = 3 ^ 2 by norm_num, Real.sqrt_sq (by norm_num)]
  rw [h9]
  norm_num

theorem palinGrade3_c3 :
    palinGrade3 [2, -1, -1, 2] =
      some (some (.found [RootR.mk 1 1, RootR.mk (-2) 1, RootR.mk (-1) 1])) := by
  unfold palinGrade3
  rw [show divRem [(2 : ℚ), -1, -1, 2] [1, 1] = some ([2, -3, 2], []) from by decide]
  show (if ([(2 : ℚ), -3, 2] : List ℚ).length ≠ 3 then none
    else if ([] : List ℚ) ≠ [] then none
    else some (some (match getRootsOrderTwo ((idx [(2 : ℚ), -1, -1, 2] 0 : ℝ))
        ((idx [(2 : ℚ), -1, -1, 2] 1 : ℝ)) ((idx [(2 : ℚ), -1, -1, 2] 2 : ℝ)) with
      | .found rs0 => (Roots.found rs0).append (RootR.mk (-1) 1)
      | _ => .noRoots))) = _
  rw [if_neg (by decide), if_neg (by simp), rootsOrderTwo_c3]
  rfl

theorem findRoots_c3 :
    findRoots [2, -1, -1, 2] =
      some (.found [RootR.mk 1 1, RootR.mk (-2) 1, RootR.mk (-1) 1]) := by
  show getRootsGeneralF 4 [2, -1, -1, 2] = _
  rw [show (4 : ℕ) = 3 + 1 from rfl, getRootsGeneralF_succ,
    show getRootsBiquadratic [2, -1, -1, 2] = none from rfl,
    show getRootsBinomial [2, -1, -1, 2] = none from rfl]
  show flattenPal (if ([(2 : ℚ), -1, -1, 2] : List ℚ).length = 4 ∧ isPalindrome [2, -1, -1, 2]
      then palinGrade3 [2, -1, -1, 2]
      else if ([(2 : ℚ), -1, -1, 2] : List ℚ).length = 5 then
        some (getRootsQuasiPalindrome [2, -1, -1, 2])
      else if ([(2 : ℚ), -1, -1, 2] : List ℚ).length % 2 = 0 ∧
          ([(2 : ℚ), -1, -1, 2] : List ℚ).length ≠ 0 then
        match divRem [(2 : ℚ), -1, -1, 2] [1, 1] with
        | none => none
        | some qr =>
          if qr.2 ≠ [] then none
          else if 5 < qr.1.length then some none
          else match getRootsGeneralF 3 qr.1 with
            | none => none
            | some rs => some (some (rs.append (RootR.mk (-1) 1)))
      else some none) = _
  rw [if_pos (by exact ⟨rfl, by decide⟩), palinGrade3_c3]
  rfl


/-! ## Claim C3 — the odd-grade palindrome reduction -/

/-- Claim C3 (code bug): for the palindromic cubic `2x³ - x² - x + 2`,
`(x+1)` does divide exactly (quotient `2x² - 3x + 2`, remainder zero), but
the grade-3 palindrome arm solves the quadratic `[p0, p1, p2] = [2, -1, -1]`
of the input itself instead of the quotient, reporting `1` and `-2` — which
are not roots: `p(1) = 2`.  The claim's result (the quotient's real roots
plus `-1`) would be `[-1]` alone, the quotient having no real roots. -/
theorem c3_palindrome_solves_wrong_quadratic :
    divRem [2, -1, -1, 2] [1, 1] = some ([2, -3, 2], []) ∧
      findRoots [2, -1, -1, 2] =
        some (.found [RootR.mk 1 1, RootR.mk (-2) 1, RootR.mk (-1) 1]) ∧
      evalR [2, -1, -1, 2] 1 = 2 := by
  refine ⟨by decide, findRoots_c3, ?_⟩
  unfold evalR
  norm_num

/-! ## Claim C7 — the unimplemented fallback -/

/-- Claim C7 counterexample: `x⁶ + x + 1` (grade 6) matches no structural
detector, and `find_roots` does not terminate normally with `Found([])` or an
`Unsupported` marker — it reaches `approximate_roots`, whose body is
`todo!()`, and panics; the `Roots` type has no `Unsupported` variant at all. -/
theorem c7_fallback_panics_cex :
    ¬ ∃ r : Roots, findRoots [1, 1, 0, 0, 0, 0, 1] = some r := by
  rintro ⟨r, hr⟩
  rw [show findRoots [(1 : ℚ), 1, 0, 0, 0, 0, 1] = none from rfl] at hr
  exact Option.noConfusion hr

/-- Claim C7 (amended): for every polynomial of grade at least 3 on which all
three structural detectors fail to match (and the palindrome detector neither
matches nor panics), `find_roots` reaches the `todo!()` fallback and panics —
it returns no result, and in particular fabricates no roots. -/
theorem c7_no_match_panics (p : List ℚ) (h4 : 4 ≤ p.length)
    (hbq : getRootsBiquadratic p = none) (hbn : getRootsBinomial p = none)
    (hpl : getRootsPalindromeF (p.length - 1) p = some none) :
    findRoots p = none := by
  match p, h4, hbq, hbn, hpl with
  | c0 :: c1 :: c2 :: c3 :: t, _, hbq, hbn, hpl =>
    show getRootsGeneralF (c0 :: c1 :: c2 :: c3 :: t).length (c0 :: c1 :: c2 :: c3 :: t) = none
    have hpl2 : getRootsPalindromeF (((t.length + 1) + 1) + 1) (c0 :: c1 :: c2 :: c3 :: t) =
        some none := by
      have he : ((t.length + 1) + 1) + 1 = (c0 :: c1 :: c2 :: c3 :: t).length - 1 := by
        simp
      rw [he]
      exact hpl
    show getRootsGeneralF ((((t.length + 1) + 1) + 1) + 1) (c0 :: c1 :: c2 :: c3 :: t) = none
    rw [getRootsGeneralF_succ, hbq, hbn, hpl2]
    rfl

/-- Claim C7 witness: the amended statement at the concrete unstructured
polynomial `x⁶ + x² + 1`. -/
theorem c7_witness : findRoots [1, 0, 1, 0, 0, 0, 1] = none :=
  c7_no_match_panics [1, 0, 1, 0, 0, 0, 1] (by norm_num) rfl rfl rfl

/-! ## Claim C6 — construction canonicality -/

/-- Claim C6 counterexample: the coefficient sequence `[0, 0]` is accepted by
construction but the constructed polynomial keeps grade 1 with a zero leading
coefficient — construction does not trim trailing zero leading coefficients. -/
theorem c6_construct_not_canonical :
    construct [(0 : ℚ), 0] = some [0, 0] ∧ ¬ canonical [(0 : ℚ), 0] := by decide

/-- Claim C6 (amended): construction canonicalizes only the singleton zero
sequence `[0]` (yielding the zero polynomial); every other accepted sequence
is stored verbatim, so trailing zero leading coefficients survive. -/
theorem c6_construct_trims_only_singleton_zero (l r : List ℚ)
    (h : construct l = some r) : r = if l = [(0 : ℚ)] then [] else l := by
  match l with
  | [] =>
    rw [show construct ([] : List ℚ) = some [] from rfl] at h
    simpa using h.symm
  | [c] =>
    rw [show construct [c] = some (if c = 0 then [] else [c]) from rfl] at h
    by_cases hc : c = 0
    · subst hc
      simp at h
      simp [h.symm]
    · rw [if_neg hc] at h
      have hne : [c] ≠ [(0 : ℚ)] := by simp [hc]
      simp at h
      simp [hne, h.symm]
  | a :: b :: t =>
    unfold construct at h
    split at h
    · exact absurd h (by simp)
    · have hne : a :: b :: t ≠ [(0 : ℚ)] := by simp
      simp at h
      simp [hne, h.symm]

/-- Claim C6 witness: the amended statement at the singleton zero sequence. -/
theorem c6_witness :
    ([] : List ℚ) = if [(0 : ℚ)] = [(0 : ℚ)] then ([] : List ℚ) else [(0 : ℚ)] :=
  c6_construct_trims_only_singleton_zero [(0 : ℚ)] [] (by decide)

/-! ## Claim C8 — conversion overflow behaviour -/

/-- Claim C8 counterexample: the coefficient `3·10⁹` exceeds the 32-bit
rational width, and `div_rem` on a polynomial containing it panics (models the
`expect("values too big")`) instead of returning a typed error value. -/
theorem c8_overflow_cex :
    ¬ rep32 ((3000000000 : ℚ)) ∧ divRem [3000000000] [1] = none := by decide

/-- Claim C8 (amended): a coefficient that is not representable in the bounded
32-bit rational width makes the exact-algebra operations panic (`expect` on
the failed conversion) — `div_rem`, `primitive` always, `square_free_part` and
`gcd` whenever they reach the conversion (grade at least 1). -/
theorem c8_overflow_panics (p q : List ℚ) (h : ¬ ∀ c ∈ p, rep32 c) :
    divRem p q = none ∧ primitiveP p = none ∧
      (2 ≤ p.length → gsfdP p = none) ∧
      (2 ≤ p.length → 2 ≤ q.length → gcdP p q = none) := by
  have ht := toRatios_eq_none h
  refine ⟨?_, ?_, ?_, ?_⟩
  · unfold divRem
    rw [ht]
  · unfold primitiveP
    rw [ht]
  · intro hp
    unfold gsfdP
    rw [if_neg (by omega), ht]
  · intro hp hq
    match p, hp, q, hq with
    | a :: b :: tp, _, c :: d :: tq, _ =>
      show (match toRatios (a :: b :: tp), toRatios (c :: d :: tq) with
        | some x, some y => gcdQ x y
        | _, _ => none) = none
      rw [ht]

/-- Claim C8 witness: the amended statement at a concrete overflowing
polynomial. -/
theorem c8_witness :
    divRem [(3000000000 : ℚ), 1] [0, 1] = none ∧
      primitiveP [(3000000000 : ℚ), 1] = none ∧
      (2 ≤ ([(3000000000 : ℚ), 1] : List ℚ).length → gsfdP [(3000000000 : ℚ), 1] = none) ∧
      (2 ≤ ([(3000000000 : ℚ), 1] : List ℚ).length → 2 ≤ ([(0 : ℚ), 1] : List ℚ).length →
        gcdP [(3000000000 : ℚ), 1] [0, 1] = none) :=
  c8_overflow_panics [3000000000, 1] [0, 1] (by intro h; exact absurd (h 3000000000 (by simp)) (by decide))

/-! ## Claim C9 — square-free part -/

/-- Claim C9: `square_free_part` of `[1875, -2000, -1025, 640, 425, 80, 5]`
(which is `5(x-1)²(x+3)(x+5)³`) is exactly `[-15, 7, 7, 1]`, and any
polynomial of grade at most 0 is returned unchanged. -/
theorem c9_square_free_part :
    gsfdP [1875, -2000, -1025, 640, 425, 80, 5] = some [-15, 7, 7, 1] ∧
      ∀ p : List ℚ, grade p ≤ 0 → gsfdP p = some p := by
  constructor
  · decide
  · intro p h
    unfold grade at h
    unfold gsfdP
    rw [if_pos (by omega)]

/-- Claim C9 witness: the grade-0 clause at the constant polynomial `[5]`. -/
theorem c9_witness : gsfdP [(5 : ℚ)] = some [5] :=
  c9_square_free_part.2 [5] (by decide)

/-! ## Claim C10 — primitive on degenerate polynomials -/

/-- Claim C10 counterexample: grade `≥ 0` is not a sufficient precondition for
`primitive` to be total — the grade-1 polynomial `[0, 0]` also panics (its
content is zero and the final division by the content divides by zero). -/
theorem c10_grade_nonneg_not_sufficient :
    0 ≤ grade [(0 : ℚ), 0] ∧ primitiveP [(0 : ℚ), 0] = none := by decide

/-- Claim C10 (amended): `primitive` panics on the zero polynomial and, more
generally, on every polynomial all of whose coefficients are zero; definedness
requires a non-zero coefficient, not merely grade `≥ 0`. -/
theorem c10_primitive_all_zero_panics (p : List ℚ) (h : ∀ c ∈ p, c = 0) :
    primitiveP p = none := by
  have hrep : ∀ c ∈ p, rep32 c := fun c hc => by rw [h c hc]; decide
  have hstep : primitiveP p = primitiveQ p := by
    unfold primitiveP
    rw [toRatios_eq_some hrep]
  rw [hstep]
  cases hp : p.getLast? with
  | none =>
    unfold primitiveQ
    rw [hp]
  | some lst =>
    have hl : lst = 0 := h lst (List.mem_of_getLast?_eq_some hp)
    unfold primitiveQ
    rw [hp, foldlM_sgcd_zero h, hl]
    simp [oppositeSigns]

/-- Claim C10 witness: the amended statement at the zero polynomial itself
(`v.last().unwrap()` panics on the empty coefficient slice). -/
theorem c10_witness : primitiveP ([] : List ℚ) = none :=
  c10_primitive_all_zero_panics [] (by simp)

end PRC
